import Mathlib

/-!
Verification of the weighting-and-scoring core of the AHP country
comparison app (sources: streamlit_app.py and filter_functions.py).

Modelling conventions of the shallow embedding:
- real-valued weights and cell values are exact rationals;
- a Python dict keyed by strings is an association list in insertion
  order (keys unique, the representation invariant of a dict);
- the st.warning call that flags the equal-weight fallback is modelled
  as a Boolean flag in the returned value;
- a raised ZeroDivisionError is the error case of Except;
- a pandas cell is a CellVal: missing (NaN/None), a number, or a
  non-numeric value carrying the result of an attempted float
  conversion (some q when float succeeds, none when it raises);
- the pandas stable sort on one key is List.insertionSort, which is
  stable; Python sorted() on strings is List.insertionSort over the
  code-point lexicographic order on String.
-/

namespace AHPApp

/-! ## Definitions -/

/-- Embedding of one normalization scope of get_user_weights
(streamlit_app.py lines 205-221 for the criteria of one pillar, lines
158-173 for the pillars themselves).  The source computes
equal = 1.0 / len(criteria) first, so an empty scope raises
ZeroDivisionError; otherwise the raw slider values are summed and, when
the total is 0, every key gets 1/N together with an st.warning
(returned here as flag true), else each raw value is divided by the
total (flag false). -/
def normalize_scope (scope : List (String × ℚ)) :
    Except String (List (String × ℚ) × Bool) :=
  if scope.length = 0 then
    Except.error "ZeroDivisionError: 1.0 / len(criteria)"
  else
    let total : ℚ := (scope.map Prod.snd).sum
    if total = 0 then
      Except.ok (scope.map (fun p => (p.1, 1 / (scope.length : ℚ))), true)
    else
      Except.ok (scope.map (fun p => (p.1, p.2 / total)), false)

/-- Python dict insertion d[k] = v: replace the value stored at k when
the key is present, otherwise append (k, v) at the end (dicts keep
insertion order). -/
def dictInsert (d : List (String × ℚ)) (k : String) (v : ℚ) :
    List (String × ℚ) :=
  if d.any (fun p => p.1 == k) then
    d.map (fun p => if p.1 == k then (k, v) else p)
  else
    d ++ [(k, v)]

/-- Keys of an association list standing for a dict. -/
def dictKeys (d : List (String × ℚ)) : List String := d.map Prod.fst

/-- Sum of the values of an association list standing for a dict. -/
def dictSum (d : List (String × ℚ)) : ℚ := (d.map Prod.snd).sum

/-- The criterion entries of one pillar dict of get_user_weights: every
item except the distinguished key "weight" holding the pillar weight. -/
def critEntries (items : List (String × ℚ)) : List (String × ℚ) :=
  items.filter (fun kv => !(kv.1 == "weight"))

/-- The pillar weight stored in one pillar dict:
items.get("weight", 0.0). -/
def pillarWeight (items : List (String × ℚ)) : ℚ :=
  (items.lookup "weight").getD 0

/-- Embedding of compute_global_weights (streamlit_app.py lines
250-259): iterate the nested weight dict in order and write
global_weights[code] = pillar_weight * value for every non-"weight"
item of every pillar. -/
def compute_global_weights (weights : List (String × List (String × ℚ))) :
    List (String × ℚ) :=
  weights.foldl
    (fun gw pi =>
      pi.2.foldl
        (fun gw2 kv =>
          if kv.1 == "weight" then gw2
          else dictInsert gw2 kv.1 (pillarWeight pi.2 * kv.2))
        gw)
    []

/-- The emitted global weights written out flat, one entry
(code, pillar_weight * value) per criterion of per pillar; this is what
compute_global_weights builds when no dict key is ever overwritten. -/
def globalWeightsFlat (weights : List (String × List (String × ℚ))) :
    List (String × ℚ) :=
  (weights.map (fun pi =>
    (critEntries pi.2).map (fun kv => (kv.1, pillarWeight pi.2 * kv.2)))).flatten

/-- Value held by one cell of the country indicator table: missing
(NaN/None, pd.notna gives False), a number, or a non-numeric value
together with the outcome of float(val) (some q when the conversion
succeeds, none when it raises and the except branch is taken). -/
inductive CellVal where
  | missing : CellVal
  | num : ℚ → CellVal
  | text : Option ℚ → CellVal
deriving DecidableEq

/-- Embedding of the per-cell conversion of compute_country_scores
(streamlit_app.py lines 316-320): num = float(val) if pd.notna(val)
else 0.0, with any conversion exception giving 0.0. -/
def cellToNum : CellVal → ℚ
  | CellVal.missing => 0
  | CellVal.num q => q
  | CellVal.text (some q) => q
  | CellVal.text none => 0

/-- One row of the country indicator table: the mandatory identifier
column country_code plus the criterion cells keyed by column name. -/
structure Row where
  country_code : String
  cells : List (String × CellVal)
deriving DecidableEq

/-- Reading row[c]: the cell stored under column c (missing when the
row holds no entry for it). -/
def getCell (r : Row) (c : String) : CellVal :=
  (r.cells.lookup c).getD CellVal.missing

/-- The country indicator table: its column names (country_code
included when present) and its rows. -/
structure EntityTable where
  columns : List String
  rows : List Row
deriving DecidableEq

/-- Embedding of the score accumulation of compute_country_scores
(streamlit_app.py lines 313-322): iterate the global weights in order,
and for each criterion that is a column of the table add
cellToNum(row[crit]) * w; a criterion absent from the columns is
skipped (the else branch is a comment: missing column contributes 0). -/
def rowScore (gw : List (String × ℚ)) (cols : List String) (r : Row) : ℚ :=
  gw.foldl
    (fun acc kv =>
      if kv.1 ∈ cols then acc + cellToNum (getCell r kv.1) * kv.2 else acc)
    0

/-- One row of the assembled ranking: identifier, display name as the
left merge leaves it (none when the lookup has no entry), score. -/
structure ScoreRow where
  country_code : String
  country_name : Option String
  AHP_Score : ℚ
deriving DecidableEq

/-- Embedding of compute_country_scores (streamlit_app.py lines
291-332): empty table or missing country_code column gives an empty
ranking; otherwise score every row, attach the display name by a left
merge with the country lookup (an absent code leaves the name empty),
and sort by AHP_Score descending.  The pandas stable sort on the score
alone is List.insertionSort with the non-strict score-descending
relation. -/
def compute_country_scores (df : EntityTable) (gw : List (String × ℚ))
    (countries : List (String × String)) : List ScoreRow :=
  if df.rows.isEmpty then []
  else if "country_code" ∈ df.columns then
    List.insertionSort (fun a b => b.AHP_Score ≤ a.AHP_Score)
      (df.rows.map (fun r =>
        { country_code := r.country_code,
          country_name := countries.lookup r.country_code,
          AHP_Score := rowScore gw df.columns r }))
  else []

/-- Code-point lexicographic comparison of two strings, the order
Python uses to compare identifiers; written out structurally on the
character lists so the kernel can evaluate it. -/
def strLtB (a b : String) : Bool :=
  go a.data b.data
where
  go : List Char → List Char → Bool
    | [], [] => false
    | [], _ :: _ => true
    | _ :: _, [] => false
    | c :: cs, d :: ds =>
      if c.val < d.val then true else if d.val < c.val then false else go cs ds

/-- The ordering the ranking claim asserts: scores strictly descending,
and equal scores broken by identifier ascending (identifiers compared
as Python compares strings, by code points). -/
def rankingClaimOrder (l : List ScoreRow) : Prop :=
  l.Pairwise (fun a b =>
    b.AHP_Score < a.AHP_Score ∨
      (a.AHP_Score = b.AHP_Score ∧ strLtB a.country_code b.country_code))

/-- The criterion columns available in the data:
set(df_raw.columns) - {"country_code"} (filter_functions.py line 30),
kept in column order. -/
def availableCriteria (df : EntityTable) : List String :=
  df.columns.filter (fun c => !(c == "country_code"))

/-- Python sorted() over strings: stable insertion sort by the
lexicographic order. -/
def sortStr (l : List String) : List String :=
  List.insertionSort (fun a b => a ≤ b) l

/-- Restriction of one row to the given table columns,
df_raw.loc[:, cols]: the identifier is kept apart, the cells are
rebuilt for the criterion columns in column order. -/
def restrictRow (cols : List String) (r : Row) : Row :=
  { country_code := r.country_code,
    cells := (cols.filter (fun c => !(c == "country_code"))).map
      (fun c => (c, getCell r c)) }

/-- df.dropna(subset=codes): keep the rows whose cell is present for
every code of the subset. -/
def dropnaRows (codes : List String) (rows : List Row) : List Row :=
  rows.filter (fun r => codes.all (fun c => !(getCell r c == CellVal.missing)))

/-- The codes switched on in the persisted selected_criteria map that
are available in the data (filter_functions.py lines 132-135), in map
order. -/
def chosenCriteria (df : EntityTable) (sel : List (String × Bool)) : List String :=
  (sel.filter (fun p => p.2 && decide (p.1 ∈ availableCriteria df))).map Prod.fst

/-- The selected codes after the empty-selection fallback
(filter_functions.py lines 137-138): an empty choice reverts to
sorted(list(available_codes)) when criteria are available. -/
def selectedCriteria (df : EntityTable) (sel : List (String × Bool)) : List String :=
  if (chosenCriteria df sel).isEmpty && !(availableCriteria df).isEmpty then
    sortStr (availableCriteria df)
  else
    chosenCriteria df sel

/-- The columns kept by the criteria filter (filter_functions.py lines
140-141): country_code plus the selected codes, restricted to columns
the table has. -/
def keptColumns (df : EntityTable) (sel : List (String × Bool)) : List String :=
  ("country_code" :: selectedCriteria df sel).filter (fun c => decide (c ∈ df.columns))

/-- Embedding of the selection core of select_and_filter_criteria
(filter_functions.py lines 30 and 132-148), the dialog state passed in
as the persisted selected_criteria map sel: keep the codes switched on
that are available in the data, fall back to sorted(available) when
that leaves nothing while criteria are available, restrict the table to
country_code plus the selected codes (those among the table columns),
and drop every row with a missing value in any selected code. -/
def select_and_filter_criteria (df : EntityTable) (sel : List (String × Bool)) :
    List String × EntityTable :=
  let selected_codes := selectedCriteria df sel
  let cols := keptColumns df sel
  let restricted := df.rows.map (restrictRow cols)
  let final_rows :=
    if selected_codes.isEmpty then restricted else dropnaRows selected_codes restricted
  (selected_codes, { columns := cols, rows := final_rows })

/-- First-occurrence deduplication, pandas Series.unique(), written with
an accumulator of the codes already seen. -/
def uniqueAux (seen : List String) : List String → List String
  | [] => []
  | x :: xs => if x ∈ seen then uniqueAux seen xs else x :: uniqueAux (x :: seen) xs

/-- pandas df_raw["country_code"].unique().tolist(): the country codes
in order of first appearance. -/
def uniqueFirst (l : List String) : List String := uniqueAux [] l

/-- Embedding of the selection core of select_and_filter_countries
(filter_functions.py lines 159-167 and 286-297), the dialog state
passed in as the persisted selected_countries map sel: empty table or
missing country_code column returns the table unchanged with no
selection; otherwise keep the codes switched on that appear in the
data, fall back to sorted(available) when that leaves nothing, and keep
the rows whose code is selected. -/
def select_and_filter_countries (df : EntityTable) (sel : List (String × Bool)) :
    List String × EntityTable :=
  if df.rows.isEmpty then ([], df)
  else if "country_code" ∈ df.columns then
    let available := uniqueFirst (df.rows.map (fun r => r.country_code))
    let chosen := (sel.filter (fun p => p.2 && decide (p.1 ∈ available))).map Prod.fst
    let selected := if chosen.isEmpty then sortStr available else chosen
    (selected,
      { columns := df.columns,
        rows := df.rows.filter (fun r => decide (r.country_code ∈ selected)) })
  else ([], df)

/-- All criterion codes of the nested weight dict, every pillar in
order (the data-model invariant of section 3 of the spec is that these
are unique across the whole hierarchy). -/
def allCodes (weights : List (String × List (String × ℚ))) : List String :=
  (weights.map (fun pi => (critEntries pi.2).map Prod.fst)).flatten

instance : IsTotal ScoreRow (fun a b => b.AHP_Score ≤ a.AHP_Score) :=
  ⟨fun a b => le_total b.AHP_Score a.AHP_Score⟩

instance : IsTrans ScoreRow (fun a b => b.AHP_Score ≤ a.AHP_Score) :=
  ⟨fun _ _ _ hab hbc => le_trans hbc hab⟩

/-! ## Theorems -/

/-- Sum of the second components after dividing each by a constant. -/
theorem sum_map_div (l : List (String × ℚ)) (S : ℚ) :
    (l.map (fun p => p.2 / S)).sum = (l.map Prod.snd).sum / S := by
  induction l with
  | nil => simp
  | cons p l ih => simp [ih, add_div]

/-- C2: for every non-empty weight scope with non-negative raw weights,
normalization divides each raw weight by the positive total S (and the
resulting weights sum to exactly 1, hence to 1 within 1e-9), while a
zero total S makes every key receive exactly 1/N with the fallback flag
set for the caller (an ok result, not an error), so computation
continues. -/
theorem get_user_weights_normalization (scope : List (String × ℚ))
    (hne : scope ≠ []) (hnn : ∀ p ∈ scope, 0 ≤ p.2) :
    (0 < (scope.map Prod.snd).sum →
      normalize_scope scope =
        Except.ok
          (scope.map (fun p => (p.1, p.2 / (scope.map Prod.snd).sum)), false) ∧
      (scope.map (fun p => p.2 / (scope.map Prod.snd).sum)).sum = 1 ∧
      |(scope.map (fun p => p.2 / (scope.map Prod.snd).sum)).sum - 1| ≤
        1 / 1000000000) ∧
    ((scope.map Prod.snd).sum = 0 →
      normalize_scope scope =
        Except.ok (scope.map (fun p => (p.1, 1 / (scope.length : ℚ))), true)) ∧
    (0 < (scope.map Prod.snd).sum ∨ (scope.map Prod.snd).sum = 0) := by
  have hlen : ¬ scope.length = 0 := by
    simpa [List.length_eq_zero] using hne
  refine ⟨?_, ?_, ?_⟩
  · intro hpos
    have hS : (scope.map Prod.snd).sum ≠ 0 := ne_of_gt hpos
    have hsum : (scope.map (fun p => p.2 / (scope.map Prod.snd).sum)).sum = 1 := by
      rw [sum_map_div, div_self hS]
    refine ⟨?_, hsum, ?_⟩
    · simp [normalize_scope, hlen, hS]
    · rw [hsum]
      norm_num
  · intro hzero
    simp [normalize_scope, hlen, hzero]
  · rcases lt_or_eq_of_le (List.sum_nonneg (by
      intro q hq
      rcases List.mem_map.mp hq with ⟨p, hp, rfl⟩
      exact hnn p hp)) with h | h
    · exact Or.inl h
    · exact Or.inr h.symm

/-- C2 witness: the normalization theorem applied to the concrete scope
a ↦ 3, b ↦ 1, whose total is 4, yields a ↦ 3/4, b ↦ 1/4 with no
fallback flag. -/
theorem get_user_weights_normalization_witness :
    normalize_scope [("a", (3 : ℚ)), ("b", 1)] =
      Except.ok ([("a", (3 : ℚ) / 4), ("b", 1 / 4)], false) := by
  have h :=
    (get_user_weights_normalization [("a", (3 : ℚ)), ("b", 1)]
      (by simp)
      (by
        intro p hp
        rcases List.mem_cons.mp hp with h | hp
        · subst h; norm_num
        rcases List.mem_cons.mp hp with h | hp
        · subst h; norm_num
        · simp at hp)).1
      (by norm_num)
  rw [h.1]
  norm_num

/-- Inserting a key that is not in the dict appends the pair at the
end. -/
theorem dictInsert_of_not_mem (d : List (String × ℚ)) (k : String) (v : ℚ)
    (h : k ∉ dictKeys d) : dictInsert d k v = d ++ [(k, v)] := by
  have hany : d.any (fun p => p.1 == k) = false := by
    rw [List.any_eq_false]
    intro p hp
    simp only [beq_iff_eq]
    intro hpk
    exact h (List.mem_map.mpr ⟨p, hp, hpk⟩)
  simp [dictInsert, hany]

/-- Keys of an appended dict. -/
theorem dictKeys_append (d e : List (String × ℚ)) :
    dictKeys (d ++ e) = dictKeys d ++ dictKeys e := by
  simp [dictKeys]

/-- The inner loop of compute_global_weights over one pillar dict: as
long as no criterion code collides with a key already written, it
appends (code, pillar_weight * value) for every criterion entry, in
order. -/
theorem foldl_crit_insert (pw : ℚ) :
    ∀ (items gw : List (String × ℚ)),
      (∀ k ∈ (critEntries items).map Prod.fst, k ∉ dictKeys gw) →
      ((critEntries items).map Prod.fst).Nodup →
      items.foldl
        (fun gw2 kv =>
          if kv.1 == "weight" then gw2 else dictInsert gw2 kv.1 (pw * kv.2))
        gw
      = gw ++ (critEntries items).map (fun kv => (kv.1, pw * kv.2))
  | [], gw, _, _ => by simp [critEntries]
  | kv :: items, gw, hdisj, hnd => by
    by_cases hw : kv.1 = "weight"
    · have hcrit : critEntries (kv :: items) = critEntries items := by
        simp [critEntries, hw]
      rw [hcrit] at hdisj hnd
      simpa [hw, hcrit] using foldl_crit_insert pw items gw hdisj hnd
    · have hbeq : (kv.1 == "weight") = false := by simpa using hw
      have hcrit : critEntries (kv :: items) = kv :: critEntries items := by
        simp [critEntries, hbeq]
      rw [hcrit] at hdisj hnd
      have hk : kv.1 ∉ dictKeys gw := hdisj kv.1 (by simp)
      have hstep : dictInsert gw kv.1 (pw * kv.2) = gw ++ [(kv.1, pw * kv.2)] :=
        dictInsert_of_not_mem gw kv.1 (pw * kv.2) hk
      have hdisj2 : ∀ k ∈ (critEntries items).map Prod.fst,
          k ∉ dictKeys (gw ++ [(kv.1, pw * kv.2)]) := by
        intro k hkmem
        rw [dictKeys_append]
        intro hmem
        rcases List.mem_append.mp hmem with h | h
        · exact hdisj k (by simp [hkmem]) h
        · have : k = kv.1 := by simpa [dictKeys] using h
          subst this
          exact (List.nodup_cons.mp hnd).1 hkmem
      have hnd2 : ((critEntries items).map Prod.fst).Nodup :=
        (List.nodup_cons.mp hnd).2
      rw [List.foldl_cons]
      simp only [hbeq, if_neg Bool.false_ne_true, hstep]
      rw [foldl_crit_insert pw items (gw ++ [(kv.1, pw * kv.2)]) hdisj2 hnd2]
      simp [hcrit]

/-- The outer loop of compute_global_weights: with all criterion codes
unique and fresh relative to the accumulated dict, the result is the
accumulated dict followed by the flat list of emitted global weights. -/
theorem foldl_pillars :
    ∀ (weights : List (String × List (String × ℚ))) (gw : List (String × ℚ)),
      (∀ k ∈ allCodes weights, k ∉ dictKeys gw) →
      (allCodes weights).Nodup →
      weights.foldl
        (fun gw pi =>
          pi.2.foldl
            (fun gw2 kv =>
              if kv.1 == "weight" then gw2
              else dictInsert gw2 kv.1 (pillarWeight pi.2 * kv.2))
            gw)
        gw
      = gw ++ globalWeightsFlat weights
  | [], gw, _, _ => by simp [globalWeightsFlat]
  | pi :: weights, gw, hdisj, hnd => by
    have hsplit : allCodes (pi :: weights) =
        (critEntries pi.2).map Prod.fst ++ allCodes weights := by
      simp [allCodes]
    rw [hsplit] at hdisj hnd
    rcases List.nodup_append.mp hnd with ⟨hnd1, hnd2, hdisj12⟩
    have hinner := foldl_crit_insert (pillarWeight pi.2) pi.2 gw
      (fun k hk => hdisj k (List.mem_append.mpr (Or.inl hk))) hnd1
    rw [List.foldl_cons, hinner]
    have hdisj2 : ∀ k ∈ allCodes weights,
        k ∉ dictKeys (gw ++ (critEntries pi.2).map
          (fun kv => (kv.1, pillarWeight pi.2 * kv.2))) := by
      intro k hk
      rw [dictKeys_append]
      intro hmem
      rcases List.mem_append.mp hmem with h | h
      · exact hdisj k (List.mem_append.mpr (Or.inr hk)) h
      · have : k ∈ (critEntries pi.2).map Prod.fst := by
          simpa [dictKeys, List.map_map, Function.comp] using h
        exact hdisj12 this hk
    rw [foldl_pillars weights _ hdisj2 hnd2]
    simp [globalWeightsFlat]

/-- The sum of the flat global weights factors into pillar weight times
the sum of the criterion weights of that pillar, summed over pillars. -/
theorem dictSum_globalWeightsFlat (weights : List (String × List (String × ℚ))) :
    dictSum (globalWeightsFlat weights) =
      (weights.map (fun pi => pillarWeight pi.2 * dictSum (critEntries pi.2))).sum := by
  induction weights with
  | nil => simp [globalWeightsFlat, dictSum]
  | cons pi weights ih =>
    have hflat : globalWeightsFlat (pi :: weights) =
        (critEntries pi.2).map (fun kv => (kv.1, pillarWeight pi.2 * kv.2)) ++
          globalWeightsFlat weights := by
      simp [globalWeightsFlat]
    rw [hflat]
    have hsum : dictSum ((critEntries pi.2).map
        (fun kv => (kv.1, pillarWeight pi.2 * kv.2))) =
        pillarWeight pi.2 * dictSum (critEntries pi.2) := by
      simp [dictSum, List.map_map, Function.comp]
      exact List.sum_map_mul_left (critEntries pi.2) Prod.snd (pillarWeight pi.2)
    calc dictSum ((critEntries pi.2).map
            (fun kv => (kv.1, pillarWeight pi.2 * kv.2)) ++
          globalWeightsFlat weights)
        = dictSum ((critEntries pi.2).map
            (fun kv => (kv.1, pillarWeight pi.2 * kv.2))) +
          dictSum (globalWeightsFlat weights) := by
          simp [dictSum]
      _ = pillarWeight pi.2 * dictSum (critEntries pi.2) +
          (weights.map (fun pi => pillarWeight pi.2 * dictSum (critEntries pi.2))).sum := by
          rw [hsum, ih]
      _ = ((pi :: weights).map
            (fun pi => pillarWeight pi.2 * dictSum (critEntries pi.2))).sum := by
          simp

/-- C1: for every nested weight dict whose pillar scope is non-empty
and normalized (the pillar weights sum to 1), whose criterion scopes
are non-empty and each normalized (the criterion weights of each pillar
sum to 1), and whose criterion codes are unique across pillars (the
dict and data-model invariant of section 3 of the spec),
compute_global_weights emits exactly pillar_weight * criterion_weight
per code, and the emitted global weights sum to exactly 1, hence to 1
within 1e-9. -/
theorem compute_global_weights_mass_conservation
    (weights : List (String × List (String × ℚ)))
    (hP : weights ≠ [])
    (hPsum : (weights.map (fun pi => pillarWeight pi.2)).sum = 1)
    (hCne : ∀ pi ∈ weights, critEntries pi.2 ≠ [])
    (hCsum : ∀ pi ∈ weights, dictSum (critEntries pi.2) = 1)
    (hNodup : (allCodes weights).Nodup) :
    compute_global_weights weights = globalWeightsFlat weights ∧
    dictSum (compute_global_weights weights) = 1 ∧
    |dictSum (compute_global_weights weights) - 1| ≤ 1 / 1000000000 := by
  have hflat : compute_global_weights weights = globalWeightsFlat weights := by
    have := foldl_pillars weights [] (by simp [dictKeys]) hNodup
    simpa [compute_global_weights] using this
  have hsum : dictSum (compute_global_weights weights) = 1 := by
    rw [hflat, dictSum_globalWeightsFlat]
    have hmap : weights.map (fun pi => pillarWeight pi.2 * dictSum (critEntries pi.2)) =
        weights.map (fun pi => pillarWeight pi.2) := by
      apply List.map_congr_left
      intro pi hpi
      rw [hCsum pi hpi, mul_one]
    rw [hmap, hPsum]
  refine ⟨hflat, hsum, ?_⟩
  rw [hsum]
  norm_num

/-- C1 witness: the mass-conservation theorem at the concrete nested
dict with pillars env (weight 1/2, criteria a1 ↦ 1/2, a2 ↦ 1/2) and eco
(weight 1/2, criterion b1 ↦ 1). -/
theorem compute_global_weights_mass_conservation_witness :
    dictSum (compute_global_weights
      [("env", [("weight", (1 : ℚ) / 2), ("a1", 1 / 2), ("a2", 1 / 2)]),
       ("eco", [("weight", 1 / 2), ("b1", 1)])]) = 1 :=
  (compute_global_weights_mass_conservation
    [("env", [("weight", (1 : ℚ) / 2), ("a1", 1 / 2), ("a2", 1 / 2)]),
     ("eco", [("weight", 1 / 2), ("b1", 1)])]
    (by simp)
    (by simp [pillarWeight]; norm_num)
    (by
      intro pi hpi
      rcases List.mem_cons.mp hpi with h | hpi
      · subst h; simp [critEntries]
      rcases List.mem_cons.mp hpi with h | hpi
      · subst h; simp [critEntries]
      · simp at hpi)
    (by
      intro pi hpi
      rcases List.mem_cons.mp hpi with h | hpi
      · subst h; simp [critEntries, dictSum]; norm_num
      rcases List.mem_cons.mp hpi with h | hpi
      · subst h; simp [critEntries, dictSum]
      · simp at hpi)
    (by simp [allCodes, critEntries])).2.1

/-- Folding the score accumulator from any start adds the sum of the
contributing terms. -/
theorem rowScore_foldl_eq (gw : List (String × ℚ)) (cols : List String)
    (r : Row) (a : ℚ) :
    gw.foldl
      (fun acc kv =>
        if kv.1 ∈ cols then acc + cellToNum (getCell r kv.1) * kv.2 else acc)
      a =
    a + ((gw.filter (fun kv => decide (kv.1 ∈ cols))).map
          (fun kv => cellToNum (getCell r kv.1) * kv.2)).sum := by
  induction gw generalizing a with
  | nil => simp
  | cons kv gw ih =>
    by_cases h : kv.1 ∈ cols
    · simp [h, ih, add_assoc]
    · simp [h, ih]

/-- Closed form of the row score: the sum, over the weighted criteria
that are columns of the table, of cell value times weight. -/
theorem rowScore_eq_sum (gw : List (String × ℚ)) (cols : List String) (r : Row) :
    rowScore gw cols r =
      ((gw.filter (fun kv => decide (kv.1 ∈ cols))).map
        (fun kv => cellToNum (getCell r kv.1) * kv.2)).sum := by
  simpa [rowScore] using rowScore_foldl_eq gw cols r 0

/-- C3: the score of a row is the sum over the criterion codes that are
both in the weight mapping and among the table columns of
(cell value where a missing cell counts as 0) times the global weight
of the code, and a weighted code absent from the columns contributes
exactly 0 to every row (appending it to the weight mapping leaves the
score unchanged; the embedding is a total function, so no error is
raised). -/
theorem score_entities_row_formula (gw : List (String × ℚ))
    (cols : List String) (r : Row) :
    rowScore gw cols r =
      ((gw.filter (fun kv => decide (kv.1 ∈ cols))).map
        (fun kv => cellToNum (getCell r kv.1) * kv.2)).sum ∧
    ∀ c, c ∉ cols → ∀ w, rowScore (gw ++ [(c, w)]) cols r = rowScore gw cols r := by
  refine ⟨rowScore_eq_sum gw cols r, ?_⟩
  intro c hc w
  rw [rowScore_eq_sum, rowScore_eq_sum]
  simp [List.filter_append, hc]

/-- C3 witness: the theorem applied to a concrete table row and weight
mapping, with the absent column z (weighted 5) contributing nothing. -/
theorem score_entities_row_formula_witness :
    rowScore ([("a", (1 : ℚ) / 2)] ++ [("z", 5)]) ["country_code", "a"]
        { country_code := "X", cells := [("a", CellVal.num 2)] } =
      rowScore [("a", (1 : ℚ) / 2)] ["country_code", "a"]
        { country_code := "X", cells := [("a", CellVal.num 2)] } :=
  (score_entities_row_formula [("a", (1 : ℚ) / 2)] ["country_code", "a"]
    { country_code := "X", cells := [("a", CellVal.num 2)] }).2
    "z" (by decide) 5

/-- C7: with non-negative global weights, replacing the non-negative
value v of one cell by a missing value never increases the score of the
row (the cell is overridden by prepending, which is what the lookup of
getCell reads first). -/
theorem score_missing_value_monotonic (gw : List (String × ℚ))
    (cols : List String) (r : Row) (c : String) (v : ℚ)
    (hv : 0 ≤ v) (hw : ∀ kv ∈ gw, 0 ≤ kv.2) :
    rowScore gw cols
        { country_code := r.country_code, cells := (c, CellVal.missing) :: r.cells } ≤
      rowScore gw cols
        { country_code := r.country_code, cells := (c, CellVal.num v) :: r.cells } := by
  rw [rowScore_eq_sum, rowScore_eq_sum]
  apply List.sum_le_sum
  intro kv hkv
  have hw2 : 0 ≤ kv.2 := hw kv (List.mem_of_mem_filter hkv)
  by_cases hc : kv.1 = c
  · subst hc
    simp [getCell, List.lookup_cons, cellToNum]
    exact mul_nonneg hv hw2
  · have : (kv.1 == c) = false := by
      simpa using hc
    simp [getCell, List.lookup_cons, this]

/-- C7 witness: the monotonicity theorem at a concrete row, criterion c
with value 2 made missing, under the weight mapping c ↦ 1/3. -/
theorem score_missing_value_monotonic_witness :
    rowScore [("c", (1 : ℚ) / 3)] ["country_code", "c"]
        { country_code := "X", cells := [("c", CellVal.missing)] } ≤
      rowScore [("c", (1 : ℚ) / 3)] ["country_code", "c"]
        { country_code := "X", cells := [("c", CellVal.num 2)] } :=
  score_missing_value_monotonic [("c", (1 : ℚ) / 3)] ["country_code", "c"]
    { country_code := "X", cells := [] } "c" 2
    (by norm_num)
    (by
      intro kv hkv
      rcases List.mem_cons.mp hkv with h | h
      · subst h; norm_num
      · simp at h)

/-- C10: scoring is total over arbitrary cell contents; a present cell
whose value float() cannot convert (the except branch) contributes
exactly 0, the same as a missing cell, for every weight mapping, column
list and row. -/
theorem score_text_cell_contributes_zero (gw : List (String × ℚ))
    (cols : List String) (r : Row) (c : String) :
    rowScore gw cols
        { country_code := r.country_code, cells := (c, CellVal.text none) :: r.cells } =
      rowScore gw cols
        { country_code := r.country_code, cells := (c, CellVal.missing) :: r.cells } ∧
    cellToNum (CellVal.text none) = 0 := by
  refine ⟨?_, rfl⟩
  rw [rowScore_eq_sum, rowScore_eq_sum]
  apply congrArg
  apply List.map_congr_left
  intro kv hkv
  by_cases hc : kv.1 = c
  · subst hc
    simp [getCell, List.lookup_cons, cellToNum]
  · have : (kv.1 == c) = false := by
      simpa using hc
    simp [getCell, List.lookup_cons, this]

/-- C5 counterexample: two countries with equal scores (no weighted
criteria, so both score 0) given in the input order B, A stay in that
order, because sort_values sorts on the score alone; the claimed
identifier-ascending tie-break fails at this concrete input. -/
theorem compute_country_scores_tie_order_not_by_id :
    ¬ rankingClaimOrder
        (compute_country_scores
          { columns := ["country_code"],
            rows := [{ country_code := "B", cells := [] },
                     { country_code := "A", cells := [] }] }
          [] []) := by
  have hres : compute_country_scores
      { columns := ["country_code"],
        rows := [{ country_code := "B", cells := [] },
                 { country_code := "A", cells := [] }] }
      [] [] =
      [{ country_code := "B", country_name := none, AHP_Score := 0 },
       { country_code := "A", country_name := none, AHP_Score := 0 }] := by
    simp [compute_country_scores, rowScore, List.insertionSort, List.orderedInsert]
  rw [hres]
  intro h
  rcases List.pairwise_cons.mp h with ⟨hpair, _⟩
  have h2 := hpair _ (List.mem_singleton.mpr rfl)
  rcases h2 with h2 | h2
  · exact lt_irrefl (0 : ℚ) h2
  · exact absurd h2.2 (by decide)

/-- C5 amended: the assembled ranking is totally ordered by score
descending (each score is greater than or equal to every later one) and
is a permutation of the scored rows; the sort is on the score alone, so
equal-score entities are left in input order by the stable sort rather
than reordered by identifier. -/
theorem compute_country_scores_sorted_by_score (df : EntityTable)
    (gw : List (String × ℚ)) (countries : List (String × String)) :
    (compute_country_scores df gw countries).Pairwise
      (fun a b => b.AHP_Score ≤ a.AHP_Score) ∧
    (df.rows ≠ [] → "country_code" ∈ df.columns →
      (compute_country_scores df gw countries).Perm
        (df.rows.map (fun r =>
          { country_code := r.country_code,
            country_name := countries.lookup r.country_code,
            AHP_Score := rowScore gw df.columns r }))) := by
  constructor
  · by_cases h1 : df.rows.isEmpty
    · simp [compute_country_scores, h1]
    · by_cases h2 : "country_code" ∈ df.columns
      · have hres : compute_country_scores df gw countries =
            List.insertionSort (fun a b => b.AHP_Score ≤ a.AHP_Score)
              (df.rows.map (fun r =>
                { country_code := r.country_code,
                  country_name := countries.lookup r.country_code,
                  AHP_Score := rowScore gw df.columns r })) := by
          simp [compute_country_scores, h1, h2]
        rw [hres]
        exact List.sorted_insertionSort _ _
      · simp [compute_country_scores, h1, h2]
  · intro h1 h2
    have h1e : ¬ df.rows.isEmpty := by
      simpa [List.isEmpty_eq_false] using h1
    have hres : compute_country_scores df gw countries =
        List.insertionSort (fun a b => b.AHP_Score ≤ a.AHP_Score)
          (df.rows.map (fun r =>
            { country_code := r.country_code,
              country_name := countries.lookup r.country_code,
              AHP_Score := rowScore gw df.columns r })) := by
      simp [compute_country_scores, h1e, h2]
    rw [hres]
    exact List.perm_insertionSort _ _

/-- C5 amended witness: the sortedness-and-permutation theorem at the
concrete two-row table of the counterexample. -/
theorem compute_country_scores_sorted_by_score_witness :
    (compute_country_scores
      { columns := ["country_code"],
        rows := [{ country_code := "B", cells := [] },
                 { country_code := "A", cells := [] }] } [] []).Perm
      ([{ country_code := "B", cells := [] },
        { country_code := "A", cells := [] }].map (fun r =>
        { country_code := r.country_code,
          country_name := ([] : List (String × String)).lookup r.country_code,
          AHP_Score := rowScore [] ["country_code"] r })) :=
  (compute_country_scores_sorted_by_score
    { columns := ["country_code"],
      rows := [{ country_code := "B", cells := [] },
               { country_code := "A", cells := [] }] } [] []).2
    (by simp) (by simp)

/-- C9 counterexample: the entity A has no entry in the (empty) name
lookup, yet its ranking row carries a null display name, not the
identifier itself: the left merge leaves absent names empty and no
fallback occurs. -/
theorem compute_country_scores_unknown_name_left_null :
    compute_country_scores
        { columns := ["country_code"],
          rows := [{ country_code := "A", cells := [] }] } [] [] =
      [{ country_code := "A", country_name := none, AHP_Score := 0 }] ∧
    (none : Option String) ≠ some "A" := by
  constructor
  · simp [compute_country_scores, rowScore, List.insertionSort, List.orderedInsert]
  · simp

/-- C9 amended: every row of the assembled ranking carries exactly the
display name the lookup holds for its identifier; an identifier with no
entry gets a null (missing) display name from the left merge, and no
fallback to the raw identifier occurs in compute_country_scores. -/
theorem compute_country_scores_name_is_lookup (df : EntityTable)
    (gw : List (String × ℚ)) (countries : List (String × String)) :
    ∀ row ∈ compute_country_scores df gw countries,
      row.country_name = countries.lookup row.country_code := by
  intro row hrow
  by_cases h1 : df.rows.isEmpty
  · simp [compute_country_scores, h1] at hrow
  · by_cases h2 : "country_code" ∈ df.columns
    · have hres : compute_country_scores df gw countries =
          List.insertionSort (fun a b => b.AHP_Score ≤ a.AHP_Score)
            (df.rows.map (fun r =>
              { country_code := r.country_code,
                country_name := countries.lookup r.country_code,
                AHP_Score := rowScore gw df.columns r })) := by
        simp [compute_country_scores, h1, h2]
      rw [hres] at hrow
      have hmem := ((List.perm_insertionSort _ _).mem_iff).mp hrow
      rcases List.mem_map.mp hmem with ⟨r, _, rfl⟩
      rfl
    · simp [compute_country_scores, h1, h2] at hrow

/-- C9 amended witness: the lookup theorem applied to the single
ranking row of a table whose country A is named Alpha by the lookup. -/
theorem compute_country_scores_name_is_lookup_witness :
    ({ country_code := "A", country_name := some "Alpha", AHP_Score := 0 } :
        ScoreRow).country_name =
      ([("A", "Alpha")] : List (String × String)).lookup
        ({ country_code := "A", country_name := some "Alpha", AHP_Score := 0 } :
          ScoreRow).country_code :=
  compute_country_scores_name_is_lookup
    { columns := ["country_code"], rows := [{ country_code := "A", cells := [] }] }
    [] [("A", "Alpha")]
    { country_code := "A", country_name := some "Alpha", AHP_Score := 0 }
    (by simp [compute_country_scores, rowScore, List.insertionSort, List.orderedInsert])

/-- Membership in the accumulator-passing unique pass implies
membership in the input list. -/
theorem uniqueAux_subset :
    ∀ (l seen : List String) (a : String), a ∈ uniqueAux seen l → a ∈ l
  | [], _, _, h => absurd h (List.not_mem_nil _)
  | x :: xs, seen, a, h => by
    by_cases hx : x ∈ seen
    · rw [uniqueAux, if_pos hx] at h
      exact List.mem_cons_of_mem x (uniqueAux_subset xs seen a h)
    · rw [uniqueAux, if_neg hx] at h
      rcases List.mem_cons.mp h with rfl | h
      · exact List.mem_cons_self a xs
      · exact List.mem_cons_of_mem x (uniqueAux_subset xs (x :: seen) a h)

/-- A member of the input that was not seen yet survives the
accumulator-passing unique pass. -/
theorem mem_uniqueAux_of :
    ∀ (l seen : List String) (a : String), a ∈ l → a ∉ seen → a ∈ uniqueAux seen l
  | [], _, _, h, _ => absurd h (List.not_mem_nil _)
  | x :: xs, seen, a, h, hs => by
    by_cases hx : x ∈ seen
    · rw [uniqueAux, if_pos hx]
      rcases List.mem_cons.mp h with rfl | h
      · exact absurd hx hs
      · exact mem_uniqueAux_of xs seen a h hs
    · rw [uniqueAux, if_neg hx]
      by_cases hax : a = x
      · exact hax ▸ List.mem_cons_self x _
      · rcases List.mem_cons.mp h with h | h
        · exact absurd h hax
        · refine List.mem_cons_of_mem x (mem_uniqueAux_of xs (x :: seen) a h ?_)
          intro hmem
          rcases List.mem_cons.mp hmem with h2 | h2
          · exact hax h2
          · exact hs h2

/-- uniqueFirst keeps exactly the members of the input. -/
theorem mem_uniqueFirst (l : List String) (a : String) :
    a ∈ uniqueFirst l ↔ a ∈ l :=
  ⟨uniqueAux_subset l [] a,
   fun h => mem_uniqueAux_of l [] a h (List.not_mem_nil a)⟩

/-- sortStr keeps exactly the members of the input. -/
theorem mem_sortStr (l : List String) (a : String) : a ∈ sortStr l ↔ a ∈ l :=
  (List.perm_insertionSort _ l).mem_iff

/-- A member of the available criterion codes is a table column other
than country_code. -/
theorem mem_availableCriteria (df : EntityTable) (c : String) :
    c ∈ availableCriteria df ↔ c ∈ df.columns ∧ (c == "country_code") = false := by
  simp [availableCriteria, List.mem_filter]

/-- Every chosen criterion code is available. -/
theorem chosenCriteria_subset (df : EntityTable) (sel : List (String × Bool))
    (c : String) (h : c ∈ chosenCriteria df sel) : c ∈ availableCriteria df := by
  rcases List.mem_map.mp h with ⟨p, hp, rfl⟩
  rcases List.mem_filter.mp hp with ⟨_, hpred⟩
  simp only [Bool.and_eq_true] at hpred
  exact of_decide_eq_true hpred.2

/-- Every selected criterion code is available. -/
theorem selectedCriteria_subset (df : EntityTable) (sel : List (String × Bool))
    (c : String) (h : c ∈ selectedCriteria df sel) : c ∈ availableCriteria df := by
  rw [selectedCriteria] at h
  by_cases hcond : (chosenCriteria df sel).isEmpty && !(availableCriteria df).isEmpty
  · rw [if_pos hcond] at h
    exact (mem_sortStr _ _).mp h
  · rw [if_neg hcond] at h
    exact chosenCriteria_subset df sel c h

/-- C6 counterexample: a table with one available criterion column c
and one row, whose single cell is missing, passes the criteria filter
with a non-empty selection, yet the completeness dropna removes the
only row: the filtered table has zero rows although at least one
criterion column and one row existed. -/
theorem select_and_filter_criteria_zero_rows :
    (select_and_filter_criteria
        { columns := ["country_code", "c"],
          rows := [{ country_code := "A", cells := [("c", CellVal.missing)] }] }
        [("c", true)]).2.rows = [] ∧
    availableCriteria
        { columns := ["country_code", "c"],
          rows := [{ country_code := "A", cells := [("c", CellVal.missing)] }] } ≠ [] ∧
    ({ columns := ["country_code", "c"],
       rows := [{ country_code := "A", cells := [("c", CellVal.missing)] }] } :
      EntityTable).rows ≠ [] := by
  refine ⟨?_, by decide, by decide⟩
  decide

/-- C6 amended: the selection fallbacks themselves never empty an axis:
when at least one criterion column is available the criteria filter
always returns a non-empty selected-code list (an empty selection
reverts to all available criteria), and when the table has its
country_code column and at least one row the country filter always
returns at least one row (an empty selection reverts to all available
countries); the zero-row outcome of the counterexample comes only from
the separate row-completeness dropna of the criteria filter. -/
theorem selection_fallbacks_never_empty_axis
    (df : EntityTable) (sel : List (String × Bool))
    (df2 : EntityTable) (sel2 : List (String × Bool)) :
    (availableCriteria df ≠ [] → (select_and_filter_criteria df sel).1 ≠ []) ∧
    (df2.rows ≠ [] → "country_code" ∈ df2.columns →
      (select_and_filter_countries df2 sel2).2.rows ≠ []) := by
  constructor
  · intro hav
    show selectedCriteria df sel ≠ []
    rw [selectedCriteria]
    by_cases hch : (chosenCriteria df sel).isEmpty
    · rw [if_pos (by simp [hch, List.isEmpty_eq_false.mpr hav])]
      rcases List.exists_mem_of_ne_nil _ hav with ⟨a, ha⟩
      exact List.ne_nil_of_mem ((mem_sortStr _ a).mpr ha)
    · rw [if_neg (by simp [hch])]
      exact List.isEmpty_eq_false.mp (Bool.not_eq_true _ ▸ eq_false_of_ne_true hch)
  · intro hrows hcc
    have hne : ¬ df2.rows.isEmpty := by simp [List.isEmpty_eq_false.mpr hrows]
    rw [select_and_filter_countries, if_neg hne, if_pos hcc]
    simp only
    set available := uniqueFirst (df2.rows.map (fun r => r.country_code)) with havail
    set chosen := (sel2.filter
      (fun p => p.2 && decide (p.1 ∈ available))).map Prod.fst with hchosen
    by_cases hch : chosen.isEmpty
    · rcases List.exists_mem_of_ne_nil _ hrows with ⟨r0, hr0⟩
      have hmem : r0.country_code ∈ sortStr available := by
        rw [mem_sortStr, havail, mem_uniqueFirst]
        exact List.mem_map.mpr ⟨r0, hr0, rfl⟩
      refine List.ne_nil_of_mem (List.mem_filter.mpr ⟨hr0, ?_⟩)
      rw [if_pos hch]
      exact decide_eq_true hmem
    · have hchne : chosen ≠ [] :=
        List.isEmpty_eq_false.mp (Bool.not_eq_true _ ▸ eq_false_of_ne_true hch)
      rcases List.exists_mem_of_ne_nil _ hchne with ⟨c, hc⟩
      have hcav : c ∈ available := by
        rcases List.mem_map.mp hc with ⟨p, hp, rfl⟩
        rcases List.mem_filter.mp hp with ⟨_, hpred⟩
        simp only [Bool.and_eq_true] at hpred
        exact of_decide_eq_true hpred.2
      have hccode : c ∈ df2.rows.map (fun r => r.country_code) := by
        rw [havail, mem_uniqueFirst] at hcav
        exact hcav
      rcases List.mem_map.mp hccode with ⟨r0, hr0, hr0c⟩
      refine List.ne_nil_of_mem (List.mem_filter.mpr ⟨hr0, ?_⟩)
      rw [if_neg hch]
      exact decide_eq_true (hr0c ▸ hc)

/-- C6 amended witness: the fallback theorem at a concrete one-row
table with one criterion column and an empty selection map on both
axes. -/
theorem selection_fallbacks_never_empty_axis_witness :
    (select_and_filter_criteria
        { columns := ["country_code", "c"],
          rows := [{ country_code := "A", cells := [] }] } []).1 ≠ [] ∧
    (select_and_filter_countries
        { columns := ["country_code", "c"],
          rows := [{ country_code := "A", cells := [] }] } []).2.rows ≠ [] :=
  ⟨(selection_fallbacks_never_empty_axis
      { columns := ["country_code", "c"],
        rows := [{ country_code := "A", cells := [] }] } []
      { columns := ["country_code", "c"],
        rows := [{ country_code := "A", cells := [] }] } []).1 (by decide),
   (selection_fallbacks_never_empty_axis
      { columns := ["country_code", "c"],
        rows := [{ country_code := "A", cells := [] }] } []
      { columns := ["country_code", "c"],
        rows := [{ country_code := "A", cells := [] }] } []).2
      (by decide) (by decide)⟩

/-- Projection of the selected codes out of the criteria filter. -/
theorem select_and_filter_criteria_fst (df : EntityTable) (sel : List (String × Bool)) :
    (select_and_filter_criteria df sel).1 = selectedCriteria df sel := rfl

/-- Projection of the kept columns out of the criteria filter. -/
theorem select_and_filter_criteria_columns (df : EntityTable) (sel : List (String × Bool)) :
    (select_and_filter_criteria df sel).2.columns = keptColumns df sel := rfl

/-- Projection of the rows out of the criteria filter. -/
theorem select_and_filter_criteria_rows (df : EntityTable) (sel : List (String × Bool)) :
    (select_and_filter_criteria df sel).2.rows =
      if (selectedCriteria df sel).isEmpty then
        df.rows.map (restrictRow (keptColumns df sel))
      else
        dropnaRows (selectedCriteria df sel)
          (df.rows.map (restrictRow (keptColumns df sel))) := rfl

/-- Looking a key up in a list tabulating a function gives the function
value at any member key. -/
theorem lookup_map_self (f : String → CellVal) :
    ∀ (l : List String) (c : String), c ∈ l →
      List.lookup c (l.map (fun x => (x, f x))) = some (f c)
  | [], c, h => absurd h (List.not_mem_nil c)
  | x :: xs, c, h => by
    by_cases hcx : c = x
    · subst hcx
      simp [List.lookup_cons]
    · have hb : (c == x) = false := by simpa using hcx
      have hmem : c ∈ xs := by
        rcases List.mem_cons.mp h with h | h
        · exact absurd h hcx
        · exact h
      simp [List.lookup_cons, hb, lookup_map_self f xs c hmem]

/-- Reading a restricted row at one of its kept criterion columns gives
the original cell. -/
theorem getCell_restrictRow (cols : List String) (r : Row) (c : String)
    (h : c ∈ cols.filter (fun c => !(c == "country_code"))) :
    getCell (restrictRow cols r) c = getCell r c := by
  rw [getCell, restrictRow]
  simp only
  rw [lookup_map_self (getCell r) _ c h]
  rfl

/-- Restricting a row to the same columns twice equals restricting
once. -/
theorem restrictRow_idem (cols : List String) (r : Row) :
    restrictRow cols (restrictRow cols r) = restrictRow cols r := by
  have hcells : ∀ c ∈ cols.filter (fun c => !(c == "country_code")),
      (fun c => (c, getCell (restrictRow cols r) c)) c =
        (fun c => (c, getCell r c)) c := by
    intro c hc
    simp only
    rw [getCell_restrictRow cols r c hc]
  show Row.mk (restrictRow cols r).country_code
      ((cols.filter (fun c => !(c == "country_code"))).map
        (fun c => (c, getCell (restrictRow cols r) c))) = restrictRow cols r
  rw [List.map_congr_left hcells]
  rfl

/-- Every row the criteria filter returns is fixed by restriction to
the kept columns. -/
theorem restrictRow_fixes_result (df : EntityTable) (sel : List (String × Bool)) :
    ∀ r ∈ (select_and_filter_criteria df sel).2.rows,
      restrictRow (keptColumns df sel) r = r := by
  intro r hr
  rw [select_and_filter_criteria_rows] at hr
  have hr2 : r ∈ df.rows.map (restrictRow (keptColumns df sel)) := by
    by_cases hSe : (selectedCriteria df sel).isEmpty
    · rwa [if_pos hSe] at hr
    · rw [if_neg hSe] at hr
      exact List.mem_of_mem_filter hr
  rcases List.mem_map.mp hr2 with ⟨r0, _, rfl⟩
  exact restrictRow_idem _ _

/-- Dropping incomplete rows twice over the same codes equals dropping
once. -/
theorem dropnaRows_idem (codes : List String) (rows : List Row) :
    dropnaRows codes (dropnaRows codes rows) = dropnaRows codes rows := by
  simp only [dropnaRows, List.filter_filter]
  exact List.filter_congr (fun r _ => Bool.and_self _)

/-- The criterion columns available in the filtered table are exactly
the selected codes. -/
theorem availableCriteria_result (df : EntityTable) (sel : List (String × Bool)) :
    availableCriteria (select_and_filter_criteria df sel).2 = selectedCriteria df sel := by
  rw [availableCriteria, select_and_filter_criteria_columns, keptColumns,
    List.filter_filter, List.filter_cons]
  rw [if_neg (by simp)]
  apply List.filter_eq_self.mpr
  intro c hc
  have hav := selectedCriteria_subset df sel c hc
  rw [mem_availableCriteria] at hav
  simp [hav.1, hav.2]

/-- A code switched on in the selection map that is available ends up
among the selected codes (its presence rules the fallback out). -/
theorem mem_selectedCriteria_of (df : EntityTable) (sel : List (String × Bool))
    (p : String × Bool) (hp : p ∈ sel) (h2 : p.2 = true)
    (hA : p.1 ∈ availableCriteria df) : p.1 ∈ selectedCriteria df sel := by
  have hch : p.1 ∈ chosenCriteria df sel :=
    List.mem_map.mpr
      ⟨p, List.mem_filter.mpr ⟨hp, by rw [h2]; simp [decide_eq_true hA]⟩, rfl⟩
  rw [selectedCriteria]
  by_cases hcond : (chosenCriteria df sel).isEmpty && !(availableCriteria df).isEmpty
  · exfalso
    have hemp : chosenCriteria df sel = [] := by
      have hand := hcond
      simp only [Bool.and_eq_true] at hand
      exact List.isEmpty_iff.mp hand.1
    rw [hemp] at hch
    exact List.not_mem_nil _ hch
  · rw [if_neg hcond]
    exact hch

/-- Recomputing the chosen codes against the filtered table gives the
chosen codes again. -/
theorem chosenCriteria_result (df : EntityTable) (sel : List (String × Bool)) :
    chosenCriteria (select_and_filter_criteria df sel).2 sel = chosenCriteria df sel := by
  rw [chosenCriteria, chosenCriteria, availableCriteria_result]
  apply congrArg (List.map Prod.fst)
  apply List.filter_congr
  intro p hp
  cases h2 : p.2
  · simp
  · simp only [Bool.true_and]
    apply decide_eq_decide.mpr
    constructor
    · exact selectedCriteria_subset df sel p.1
    · exact mem_selectedCriteria_of df sel p hp h2

/-- Recomputing the selected codes against the filtered table gives the
selected codes again (in the fallback case because sorting an already
sorted list changes nothing). -/
theorem selectedCriteria_result (df : EntityTable) (sel : List (String × Bool)) :
    selectedCriteria (select_and_filter_criteria df sel).2 sel = selectedCriteria df sel := by
  rw [show selectedCriteria (select_and_filter_criteria df sel).2 sel =
      if (chosenCriteria (select_and_filter_criteria df sel).2 sel).isEmpty &&
          !(availableCriteria (select_and_filter_criteria df sel).2).isEmpty then
        sortStr (availableCriteria (select_and_filter_criteria df sel).2)
      else chosenCriteria (select_and_filter_criteria df sel).2 sel from rfl]
  rw [chosenCriteria_result, availableCriteria_result]
  by_cases hcond : (chosenCriteria df sel).isEmpty && !(availableCriteria df).isEmpty
  · have hS : selectedCriteria df sel = sortStr (availableCriteria df) := by
      rw [selectedCriteria, if_pos hcond]
    have hand := hcond
    simp only [Bool.and_eq_true] at hand
    have hAne : availableCriteria df ≠ [] := by
      have := hand.2
      simp only [Bool.not_eq_true'] at this
      exact List.isEmpty_eq_false.mp this
    have hsne : sortStr (availableCriteria df) ≠ [] := by
      rcases List.exists_mem_of_ne_nil _ hAne with ⟨a, ha⟩
      exact List.ne_nil_of_mem ((mem_sortStr _ a).mpr ha)
    rw [hS, if_pos (by simp [hand.1, List.isEmpty_eq_false.mpr hsne])]
    exact List.Sorted.insertionSort_eq (List.sorted_insertionSort _ _)
  · have hS : selectedCriteria df sel = chosenCriteria df sel := by
      rw [selectedCriteria, if_neg hcond]
    rw [hS, if_neg (by cases h : (chosenCriteria df sel).isEmpty <;> simp [h])]

/-- Recomputing the kept columns against the filtered table gives the
kept columns again. -/
theorem keptColumns_result (df : EntityTable) (sel : List (String × Bool)) :
    keptColumns (select_and_filter_criteria df sel).2 sel = keptColumns df sel := by
  rw [show keptColumns (select_and_filter_criteria df sel).2 sel =
      ("country_code" :: selectedCriteria (select_and_filter_criteria df sel).2 sel).filter
        (fun c => decide (c ∈ (select_and_filter_criteria df sel).2.columns)) from rfl]
  rw [selectedCriteria_result, select_and_filter_criteria_columns, keptColumns]
  apply List.filter_congr
  intro c hc
  apply decide_eq_decide.mpr
  constructor
  · intro hmem
    exact of_decide_eq_true (List.mem_filter.mp hmem).2
  · intro hmem
    exact List.mem_filter.mpr ⟨hc, decide_eq_true hmem⟩

/-- C8: the criteria filter is idempotent; applying it to the table it
already produced, with the same persisted selection map, returns the
identical selected codes and the identical table: no further rows or
columns are removed. -/
theorem select_and_filter_criteria_idempotent (df : EntityTable)
    (sel : List (String × Bool)) :
    select_and_filter_criteria (select_and_filter_criteria df sel).2 sel =
      select_and_filter_criteria df sel := by
  have h1 : (select_and_filter_criteria (select_and_filter_criteria df sel).2 sel).1 =
      (select_and_filter_criteria df sel).1 := by
    rw [select_and_filter_criteria_fst, select_and_filter_criteria_fst,
      selectedCriteria_result]
  have hc : (select_and_filter_criteria (select_and_filter_criteria df sel).2 sel).2.columns =
      (select_and_filter_criteria df sel).2.columns := by
    rw [select_and_filter_criteria_columns, select_and_filter_criteria_columns,
      keptColumns_result]
  have hmap : (select_and_filter_criteria df sel).2.rows.map
      (restrictRow (keptColumns df sel)) = (select_and_filter_criteria df sel).2.rows := by
    rw [List.map_congr_left (restrictRow_fixes_result df sel)]
    exact List.map_id _
  have hr : (select_and_filter_criteria (select_and_filter_criteria df sel).2 sel).2.rows =
      (select_and_filter_criteria df sel).2.rows := by
    rw [select_and_filter_criteria_rows (select_and_filter_criteria df sel).2 sel,
      selectedCriteria_result, keptColumns_result, hmap]
    by_cases hSe : (selectedCriteria df sel).isEmpty
    · rw [if_pos hSe]
    · rw [if_neg hSe]
      conv_lhs => rw [select_and_filter_criteria_rows df sel, if_neg hSe]
      conv_rhs => rw [select_and_filter_criteria_rows df sel, if_neg hSe]
      exact dropnaRows_idem _ _
  refine Prod.ext h1 ?_
  calc (select_and_filter_criteria (select_and_filter_criteria df sel).2 sel).2
      = { columns := (select_and_filter_criteria (select_and_filter_criteria df sel).2 sel).2.columns,
          rows := (select_and_filter_criteria (select_and_filter_criteria df sel).2 sel).2.rows } := rfl
    _ = { columns := (select_and_filter_criteria df sel).2.columns,
          rows := (select_and_filter_criteria df sel).2.rows } := by rw [hc, hr]
    _ = (select_and_filter_criteria df sel).2 := rfl

/-- C8 witness: idempotence at a concrete two-column table with one
complete and one incomplete row and the selection keeping criterion
c only. -/
theorem select_and_filter_criteria_idempotent_witness :
    select_and_filter_criteria
        (select_and_filter_criteria
          { columns := ["country_code", "c", "d"],
            rows := [{ country_code := "A", cells := [("c", CellVal.missing), ("d", CellVal.missing)] },
                     { country_code := "B", cells := [] }] }
          [("c", true), ("d", false)]).2
        [("c", true), ("d", false)] =
      select_and_filter_criteria
        { columns := ["country_code", "c", "d"],
          rows := [{ country_code := "A", cells := [("c", CellVal.missing), ("d", CellVal.missing)] },
                   { country_code := "B", cells := [] }] }
        [("c", true), ("d", false)] :=
  select_and_filter_criteria_idempotent
    { columns := ["country_code", "c", "d"],
      rows := [{ country_code := "A", cells := [("c", CellVal.missing), ("d", CellVal.missing)] },
               { country_code := "B", cells := [] }] }
    [("c", true), ("d", false)]

/-- C4: evaluating the source at an empty scope.  Because
equal = 1.0 / len(criteria) is computed before the zero-total check
(the guard that would skip an empty scope is commented out in the
source, streamlit_app.py lines 200-202), an empty weight scope raises
ZeroDivisionError instead of returning an empty mapping. -/
theorem normalize_scope_empty_scope_zero_division :
    normalize_scope [] =
      Except.error "ZeroDivisionError: 1.0 / len(criteria)" := rfl

end AHPApp
